import Mathlib

/-!
Verification of the `lhlist` labeled-heterogeneous-list library.

The Rust library resolves label equality, membership, element lookup and
ordered-set union at the type level.  We shallow-embed that machinery:

* typenum unsigned numerals (`UInt<U, B>` / `UTerm` / `B0` / `B1`) become the
  inductive `Uid`; typenum's `IsEqual` returns `Equal` exactly on structurally
  identical numerals, so label equality becomes decidable equality on `Uid`;
* the proc-macro `generate_uint` / `generate_uint_recurse` functions of
  `label_attribute` become `generate_uint` / `generate_uint_recurse`;
* the `Cons`/`Nil` list with `LabeledValue` heads becomes the inductive
  `HList α` (`α` is the payload type; Rust's per-element heterogeneity only
  influences payload types, never the label-directed control flow);
* the type-level dispatch of `Member`, `LookupElemByLabel(Mut)` and `Union`
  becomes structural recursion, with "no trait implementation exists"
  rendered as `Option.none`.
-/

namespace Lhlist

/-- typenum bit types `B0` / `B1`. -/
inductive TBit where
  | b0
  | b1
deriving DecidableEq, Repr

/-- typenum unsigned numerals: `UTerm` is the terminal zero numeral and
`uint u b` is `UInt<U, B>`, the numeral `u` extended by a least-significant
bit `b`. -/
inductive Uid where
  | uterm
  | uint (rest : Uid) (bit : TBit)
deriving DecidableEq, Repr

/-- Numeric value of a typenum numeral (`Unsigned::to_usize`). -/
def Uid.toNat : Uid → Nat
  | .uterm => 0
  | .uint u b => 2 * u.toNat + (match b with | .b0 => 0 | .b1 => 1)

/-- A label: `NAME` plus the type-level unique identifier `Uid`
(the `AssocType` payload lives in `LabeledValue`). -/
structure Label where
  name : String
  uid : Uid
deriving DecidableEq, Repr

/-- The `LabelEq` relation from `relation.rs`: typenum `IsEqual` on the two `Uid`
numerals, which yields `True` exactly on structurally identical numerals. -/
def labelEq (l m : Label) : Bool := l.uid == m.uid

/-- The `LabeledValue<L>` pair: a label together with a payload value. -/
structure LabeledValue (α : Type) where
  label : Label
  value : α
deriving DecidableEq, Repr

/-- The `Cons`/`Nil` list with `LabeledValue` heads (`LVCons` chains;
label-only `LCons` chains are the case `α = Unit`). -/
inductive HList (α : Type) where
  | nil
  | cons (head : LabeledValue α) (tail : HList α)
deriving DecidableEq, Repr

namespace HList

variable {α : Type}

/-- Plain-list view of an `HList`, used to state ordering properties. -/
def toList : HList α → List (LabeledValue α)
  | .nil => []
  | .cons h t => h :: t.toList

/-- The `Len` trait: `0` for `Nil`, `1 + tail` for `Cons`. -/
def len : HList α → Nat
  | .nil => 0
  | .cons _ t => 1 + t.len

/-- The `Member` relation of `relation.rs`: `False` on `Nil`; on `Cons` the
`MemberMatch` dispatch returns `True` when the head's label `LabelEq`s the
target (without consulting the tail) and recurses otherwise. -/
def member (t : Label) : HList α → Bool
  | .nil => false
  | .cons h tl => if labelEq h.label t then true else tl.member t

/-- Method `Cons::has_label_typearg`: reflects `Member`'s output boolean. -/
def has_label_typearg (l : HList α) (t : Label) : Bool := l.member t

/-- Method `Cons::has_label` (and `Nil::has_label`, which returns `false`):
delegates to `has_label_typearg`. -/
def has_label (l : HList α) (t : Label) : Bool := l.has_label_typearg t

/-- Trait `LookupElemByLabel` from `lookup.rs`: the `LookupElemByLabelMatch`
dispatch on the pair (head `LabelEq` target, tail `Member` target).
Head matches: the element is `self.head` (whatever the tail says).
Head misses but the tail contains the target: recurse into the tail.
Neither: no trait implementation exists — embedded as `none`. -/
def lookupElem (t : Label) : HList α → Option (LabeledValue α)
  | .nil => none
  | .cons h tl =>
    if labelEq h.label t then some h
    else if tl.member t then tl.lookupElem t
    else none

/-- Trait `LookupElemByLabelMut` from `lookup.rs`, same dispatch as `lookupElem`;
mutation through the returned `&mut` reference is embedded as applying `f`
to the element the reference points at. -/
def updateElem (t : Label) (f : LabeledValue α → LabeledValue α) :
    HList α → Option (HList α)
  | .nil => none
  | .cons h tl =>
    if labelEq h.label t then some (.cons (f h) tl)
    else if tl.member t then (tl.updateElem t f).map (.cons h)
    else none

/-- Method `Cons::value`: project the looked-up `LabeledValue` to its payload. -/
def valueOf (t : Label) (l : HList α) : Option α :=
  (l.lookupElem t).map (·.value)

/-- Method `Cons::value_mut` used as a setter: write `v` through the mutable
payload reference of the element labeled `t`. -/
def setValue (t : Label) (v : α) (l : HList α) : Option (HList α) :=
  l.updateElem t (fun e => ⟨e.label, v⟩)

/-- The `OrderedHSet` marker of `ordered_set.rs`: `Nil` qualifies; `Cons`
qualifies when the tail qualifies and does not contain the head's label. -/
def orderedHSet : HList α → Bool
  | .nil => true
  | .cons h tl => !tl.member h.label && tl.orderedHSet

/-- Method `OrderedHSet::prepend` (its `Member<H, Output=False>` bound is carried
as a hypothesis of the theorems about it). -/
def prepend (l : HList α) (h : LabeledValue α) : HList α := .cons h l

/-- Trait `Union` from `ordered_set.rs`: `Nil.union(rhs) = rhs`,
`Cons{head, tail}.union(rhs) = Cons{head, tail.union(rhs)}`. -/
def union : HList α → HList α → HList α
  | .nil, rhs => rhs
  | .cons h t, rhs => .cons h (t.union rhs)

/-- Method `BuildStrLabels::build_labels` from `label.rs`: `Nil` asserts
`idx == v.len()`; `Cons` asserts `idx < v.len()`, writes `v[idx] = NAME`
and recurses with `idx + 1`.  A failed assertion (which is also exactly
when the `v[idx]` write would panic) is embedded as `none`. -/
def build_labels : HList α → List String → Nat → Option (List String)
  | .nil, v, idx => if idx = v.length then some v else none
  | .cons h tl, v, idx =>
    if idx < v.length then tl.build_labels (v.set idx h.label.name) (idx + 1)
    else none

/-- Method `StrLabels::static_labels` from `label.rs`: `Nil` returns `vec![]`;
`Cons` allocates `vec![""; LEN]` and fills it with `build_labels` from
index `0`. -/
def static_labels : HList α → Option (List String)
  | .nil => some []
  | .cons h tl => (cons h tl).build_labels (List.replicate (cons h tl).len "") 0

end HList

/-- Rust `usize::next_power_of_two`: the smallest power of two greater than
or equal to the input (`1` for input `0`), written with Mathlib's ceiling
logarithm. -/
def next_power_of_two (n : Nat) : Nat := 2 ^ Nat.clog 2 n

/-- Function `generate_uint_recurse` from `label_attribute/src/lib.rs`: while the
cursor mask is nonzero, append the bit `target & curr_val > 0` to the token
stream built so far and shift the mask right by one. -/
def generate_uint_recurse (target curr_val : Nat) (curr_toks : Uid) : Uid :=
  if curr_val = 0 then curr_toks
  else
    generate_uint_recurse target (curr_val >>> 1)
      (.uint curr_toks (if 0 < target &&& curr_val then .b1 else .b0))
termination_by curr_val
decreasing_by
  simp only [Nat.shiftRight_one]
  exact Nat.div_lt_self (Nat.pos_of_ne_zero (by assumption)) (by omega)

/-- Function `generate_uint` from `label_attribute/src/lib.rs`: start the cursor at
`value.next_power_of_two()` (`0` when `value = 0`) and build the typenum
numeral from `UTerm`. -/
def generate_uint (value : Nat) : Uid :=
  let start := if 0 < value then next_power_of_two value else 0
  generate_uint_recurse value start .uterm

/-- One minting step on the process-wide `INCREMENTAL_ID_COUNTER`:
`fetch_add(1, SeqCst)` returns the old counter value and leaves the counter
incremented. -/
def mint (counter : Nat) : Nat × Nat := (counter, counter + 1)

/-- The ids handed out by `n` successive label declarations threading the
counter state from `c` (each declaration calls `mint` once, per
`impl_label`). -/
def mintSeq (c : Nat) : Nat → List Nat
  | 0 => []
  | n + 1 => (mint c).1 :: mintSeq (mint c).2 n

/-- Sample labels with small explicit typenum uids (1, 2 and 3), used to
instantiate universally quantified theorems at concrete inputs. -/
def lblA : Label := ⟨"A", .uint .uterm .b1⟩

/-- Sample label with uid 2. -/
def lblB : Label := ⟨"B", .uint (.uint .uterm .b1) .b0⟩

/-- Sample label with uid 3. -/
def lblC : Label := ⟨"C", .uint (.uint .uterm .b1) .b1⟩

/-! ### Properties of the numeral generator -/

theorem generate_uint_recurse_pow (t : Nat) :
    ∀ (k : Nat) (acc : Uid),
      (generate_uint_recurse t (2 ^ k) acc).toNat =
        acc.toNat * 2 ^ (k + 1) + t % 2 ^ (k + 1) := by
  intro k
  induction k with
  | zero =>
    intro acc
    rw [pow_zero, generate_uint_recurse, if_neg one_ne_zero]
    have h0 : (1 : Nat) >>> 1 = 0 := rfl
    rw [h0, generate_uint_recurse, if_pos rfl]
    have h1 : t &&& 1 = t % 2 := Nat.and_one_is_mod t
    rcases Nat.mod_two_eq_zero_or_one t with h2 | h2 <;>
      simp [Uid.toNat, h1, h2] <;> omega
  | succ k ih =>
    intro acc
    have hne : 2 ^ (k + 1) ≠ 0 := by positivity
    rw [generate_uint_recurse, if_neg hne]
    have hdiv : 2 ^ (k + 1) >>> 1 = 2 ^ k := by
      rw [Nat.shiftRight_one, pow_succ]
      omega
    rw [hdiv, ih]
    have hand : t &&& 2 ^ (k + 1) = (t.testBit (k + 1)).toNat * 2 ^ (k + 1) :=
      Nat.and_two_pow t (k + 1)
    have htb : t.testBit (k + 1) = decide (t / 2 ^ (k + 1) % 2 = 1) :=
      Nat.testBit_to_div_mod
    have hmod : t % 2 ^ (k + 1 + 1) = t % 2 ^ (k + 1) + 2 ^ (k + 1) * (t / 2 ^ (k + 1) % 2) := by
      rw [pow_succ]
      exact Nat.mod_mul
    have hp : 0 < 2 ^ (k + 1) := by positivity
    rcases Nat.mod_two_eq_zero_or_one (t / 2 ^ (k + 1)) with h2 | h2
    · have hb : ¬ 0 < t &&& 2 ^ (k + 1) := by
        rw [hand, htb, h2]
        simp
      rw [if_neg hb, hmod, h2]
      simp only [Uid.toNat, Nat.mul_zero, Nat.add_zero]
      ring
    · have hb : 0 < t &&& 2 ^ (k + 1) := by
        rw [hand, htb, h2]
        simp [hp]
      rw [if_pos hb, hmod, h2]
      simp only [Uid.toNat, Nat.mul_one]
      ring

theorem toNat_generate_uint (v : Nat) : (generate_uint v).toNat = v := by
  unfold generate_uint
  by_cases hv : 0 < v
  · simp only [hv, if_pos, next_power_of_two]
    rw [generate_uint_recurse_pow]
    have h1 : v ≤ 2 ^ Nat.clog 2 v := Nat.le_pow_clog (by omega) v
    have h2 : v < 2 ^ (Nat.clog 2 v + 1) := by
      calc v ≤ 2 ^ Nat.clog 2 v := h1
        _ < 2 ^ (Nat.clog 2 v + 1) := Nat.pow_lt_pow_succ (by omega)
    simp [Uid.toNat, Nat.mod_eq_of_lt h2]
  · have : v = 0 := by omega
    subst this
    rw [if_neg (by omega)]
    rw [generate_uint_recurse]
    simp [Uid.toNat]

theorem generate_uint_injective {v w : Nat}
    (h : generate_uint v = generate_uint w) : v = w := by
  have := congrArg Uid.toNat h
  rwa [toNat_generate_uint, toNat_generate_uint] at this

/-! ### Properties of the minting sequence -/

theorem mintSeq_length (c n : Nat) : (mintSeq c n).length = n := by
  induction n generalizing c with
  | zero => rfl
  | succ n ih => simp [mintSeq, mint, ih]

theorem mintSeq_getD (c n i : Nat) (h : i < n) :
    (mintSeq c n).getD i 0 = c + i := by
  induction n generalizing c i with
  | zero => omega
  | succ n ih =>
    cases i with
    | zero => simp [mintSeq, mint]
    | succ i =>
      simp only [mintSeq, mint, List.getD_cons_succ]
      rw [ih (c + 1) i (by omega)]
      omega

/-! ### Helper lemmas about membership, lookup and update -/

namespace HList

variable {α : Type}

theorem member_nil (t : Label) : (nil : HList α).member t = false := rfl

theorem member_cons (t : Label) (h : LabeledValue α) (tl : HList α) :
    (cons h tl).member t = (labelEq h.label t || tl.member t) := by
  simp only [member]
  cases labelEq h.label t <;> simp

theorem member_eq_any (t : Label) (l : HList α) :
    l.member t = l.toList.any (fun e => labelEq e.label t) := by
  induction l with
  | nil => rfl
  | cons h tl ih => simp [member_cons, toList, ih]

theorem lookupElem_isSome (t : Label) (l : HList α) :
    (l.lookupElem t).isSome = l.member t := by
  induction l with
  | nil => rfl
  | cons h tl ih =>
    rw [member_cons]
    simp only [lookupElem]
    cases hb : labelEq h.label t
    · cases hm : tl.member t <;> simp [hm, ih]
    · simp

theorem lookupElem_cons_pos (t : Label) (h : LabeledValue α) (tl : HList α)
    (hb : labelEq h.label t = true) :
    (cons h tl).lookupElem t = some h := by
  simp only [lookupElem, hb, if_true]

theorem lookupElem_cons_neg (t : Label) (h : LabeledValue α) (tl : HList α)
    (hb : labelEq h.label t = false) :
    (cons h tl).lookupElem t = tl.lookupElem t := by
  simp only [lookupElem, hb, Bool.false_eq_true, if_false]
  cases hm : tl.member t
  · have hs := lookupElem_isSome t tl
    rw [hm] at hs
    cases hl : tl.lookupElem t
    · simp
    · rw [hl] at hs
      simp at hs
  · simp

theorem lookupElem_eq_find (t : Label) (l : HList α) :
    l.lookupElem t = l.toList.find? (fun e => labelEq e.label t) := by
  induction l with
  | nil => rfl
  | cons h tl ih =>
    cases hb : labelEq h.label t
    · rw [lookupElem_cons_neg t h tl hb, toList, List.find?_cons_of_neg _ (by simp [hb]), ih]
    · rw [lookupElem_cons_pos t h tl hb, toList, List.find?_cons_of_pos _ (by simp [hb])]

theorem updateElem_isSome (t : Label) (f : LabeledValue α → LabeledValue α) (l : HList α) :
    (l.updateElem t f).isSome = l.member t := by
  induction l with
  | nil => rfl
  | cons h tl ih =>
    rw [member_cons]
    simp only [updateElem]
    cases hb : labelEq h.label t
    · cases hm : tl.member t <;> simp [hm, ih]
    · simp

theorem updateElem_cons_pos (t : Label) (f : LabeledValue α → LabeledValue α)
    (h : LabeledValue α) (tl : HList α) (hb : labelEq h.label t = true) :
    (cons h tl).updateElem t f = some (cons (f h) tl) := by
  simp only [updateElem, hb, if_true]

theorem updateElem_cons_neg (t : Label) (f : LabeledValue α → LabeledValue α)
    (h : LabeledValue α) (tl : HList α) (hb : labelEq h.label t = false) :
    (cons h tl).updateElem t f = (tl.updateElem t f).map (cons h) := by
  simp only [updateElem, hb, Bool.false_eq_true, if_false]
  cases hm : tl.member t
  · have hs := updateElem_isSome t f tl
    rw [hm] at hs
    cases hl : tl.updateElem t f
    · simp
    · rw [hl] at hs
      simp at hs
  · simp

theorem setValue_spec (B : Label) (v : α) (l : HList α) (hmem : l.member B = true) :
    ∃ l', l.setValue B v = some l' ∧ l'.valueOf B = some v ∧
      List.Forall₂ (fun e e' => e'.label = e.label ∧ (labelEq e.label B = false → e' = e))
        l.toList l'.toList := by
  induction l with
  | nil => simp [member_nil] at hmem
  | cons h tl ih =>
    cases hb : labelEq h.label B
    · rw [member_cons, hb, Bool.false_or] at hmem
      obtain ⟨tl', hup, hval, hframe⟩ := ih hmem
      refine ⟨cons h tl', ?_, ?_, ?_⟩
      · unfold setValue at hup ⊢
        rw [updateElem_cons_neg B _ h tl hb, hup]
        rfl
      · have hmem' : tl'.member B = true := by
          have h1 : (tl'.lookupElem B).isSome = true := by
            unfold valueOf at hval
            rcases Option.map_eq_some'.mp hval with ⟨e, he, _⟩
            simp [he]
          rwa [lookupElem_isSome] at h1
        unfold valueOf at hval ⊢
        rw [lookupElem_cons_neg B h tl' hb, hval]
      · exact List.Forall₂.cons ⟨rfl, fun _ => rfl⟩ hframe
    · refine ⟨cons ⟨h.label, v⟩ tl, ?_, ?_, ?_⟩
      · unfold setValue
        rw [updateElem_cons_pos B _ h tl hb]
      · unfold valueOf
        rw [lookupElem_cons_pos B ⟨h.label, v⟩ tl hb]
        rfl
      · refine List.Forall₂.cons ⟨rfl, fun hc => by rw [hb] at hc; cases hc⟩ ?_
        exact (List.forall₂_same).mpr (fun e _ => ⟨rfl, fun _ => rfl⟩)

theorem toList_union (a b : HList α) :
    (a.union b).toList = a.toList ++ b.toList := by
  induction a with
  | nil => rfl
  | cons h t ih => simp [union, toList, ih]

theorem member_union (t : Label) (a b : HList α) :
    (a.union b).member t = (a.member t || b.member t) := by
  induction a with
  | nil => simp [union, member_nil]
  | cons h tl ih => simp [union, member_cons, ih, Bool.or_assoc]

theorem orderedHSet_cons (h : LabeledValue α) (tl : HList α) :
    (cons h tl).orderedHSet = (!tl.member h.label && tl.orderedHSet) := rfl

theorem union_orderedHSet (a b : HList α) (ha : a.orderedHSet = true)
    (hb : b.orderedHSet = true)
    (hd : ∀ x ∈ a.toList, b.member x.label = false) :
    (a.union b).orderedHSet = true := by
  induction a with
  | nil => exact hb
  | cons h t ih =>
    rw [orderedHSet_cons, Bool.and_eq_true, Bool.not_eq_true'] at ha
    obtain ⟨ha1, ha2⟩ := ha
    have hdh : b.member h.label = false := hd h (by simp [toList])
    have hdt : ∀ x ∈ t.toList, b.member x.label = false := fun x hx =>
      hd x (by simp [toList, hx])
    show (cons h (t.union b)).orderedHSet = true
    rw [orderedHSet_cons, Bool.and_eq_true, Bool.not_eq_true']
    exact ⟨by simp [member_union, ha1, hdh], ih ha2 hdt⟩

theorem union_shared_not_orderedHSet (a b : HList α)
    (hs : ∃ x ∈ a.toList, b.member x.label = true) :
    (a.union b).orderedHSet = false := by
  induction a with
  | nil => simp [toList] at hs
  | cons h t ih =>
    obtain ⟨x, hx, hxm⟩ := hs
    simp only [toList, List.mem_cons] at hx
    show (cons h (t.union b)).orderedHSet = false
    rw [orderedHSet_cons]
    rcases hx with rfl | hx
    · rw [member_union, hxm]
      simp
    · rw [ih ⟨x, hx, hxm⟩]
      simp

theorem len_eq_toList_length (l : HList α) : l.len = l.toList.length := by
  induction l with
  | nil => rfl
  | cons h t ih => simp [len, toList, ih, Nat.add_comm]

theorem list_set_append {β : Type} (pre : List β) (x y : β) (r : List β) :
    (pre ++ y :: r).set pre.length x = pre ++ x :: r := by
  induction pre with
  | nil => rfl
  | cons p ps ih => simp [List.set, ih]

theorem build_labels_append (l : HList α) :
    ∀ pre : List String,
      l.build_labels (pre ++ List.replicate l.len "") pre.length =
        some (pre ++ l.toList.map (fun e => e.label.name)) := by
  induction l with
  | nil =>
    intro pre
    simp [build_labels, len, toList]
  | cons h tl ih =>
    intro pre
    have hrep : List.replicate (cons h tl).len "" = "" :: List.replicate tl.len "" := by
      show List.replicate (1 + tl.len) "" = _
      rw [Nat.add_comm, List.replicate_succ]
    have hlen : pre.length < (pre ++ List.replicate (cons h tl).len "").length := by
      rw [List.length_append, List.length_replicate]
      show pre.length < pre.length + (1 + tl.len)
      omega
    simp only [build_labels, if_pos hlen, hrep]
    rw [list_set_append pre h.label.name "" (List.replicate tl.len "")]
    have hstep := ih (pre ++ [h.label.name])
    simp only [List.append_assoc, List.singleton_append, List.length_append,
      List.length_singleton] at hstep
    rw [hstep]
    simp [toList]

theorem static_labels_eq (l : HList α) :
    l.static_labels = some (l.toList.map (fun e => e.label.name)) := by
  cases l with
  | nil => rfl
  | cons h tl =>
    have hmain := build_labels_append (cons h tl) []
    simpa [static_labels] using hmain

end HList

/-! ### Claim theorems -/

/-- C1: `elem` and `elem_mut` return the leftmost element whose label's Uid
equals the target's: a matching head is returned as `self.head` regardless
of the tail (so on a duplicate-label list the head-most occurrence wins),
and a non-matching head defers to the lookup result on the tail; overall
the lookup equals the first match in list order. -/
theorem claim_C1_lookup_leftmost {α : Type} (t : Label) (h : LabeledValue α)
    (tl l : HList α) (f : LabeledValue α → LabeledValue α) :
    (labelEq h.label t = true →
      (HList.cons h tl).lookupElem t = some h ∧
      (HList.cons h tl).updateElem t f = some (HList.cons (f h) tl)) ∧
    (labelEq h.label t = false →
      (HList.cons h tl).lookupElem t = tl.lookupElem t ∧
      (HList.cons h tl).updateElem t f = (tl.updateElem t f).map (HList.cons h)) ∧
    l.lookupElem t = l.toList.find? (fun e => labelEq e.label t) := by
  refine ⟨fun hb => ⟨?_, ?_⟩, fun hb => ⟨?_, ?_⟩, ?_⟩
  · exact HList.lookupElem_cons_pos t h tl hb
  · exact HList.updateElem_cons_pos t f h tl hb
  · exact HList.lookupElem_cons_neg t h tl hb
  · exact HList.updateElem_cons_neg t f h tl hb
  · exact HList.lookupElem_eq_find t l

/-- C1 witness: on the duplicate-label list `[A = 1, A = 2]`, looking up `A`
returns the head-most element `A = 1`. -/
theorem claim_C1_lookup_leftmost_witness :
    (HList.cons ⟨lblA, 1⟩ (HList.cons ⟨lblA, 2⟩ HList.nil)).lookupElem lblA =
      some ⟨lblA, (1 : Nat)⟩ :=
  ((claim_C1_lookup_leftmost lblA ⟨lblA, 1⟩ (HList.cons ⟨lblA, 2⟩ HList.nil)
      HList.nil id).1 (by decide)).1

/-- C2: lookup is defined exactly on members: the embedded lookup function
is `some` iff `Member` on the list yields `True`, and `none` precisely when
`Member` yields `False` (the compile-time rejection of absent labels). -/
theorem claim_C2_lookup_iff_member {α : Type} (t : Label) (l : HList α) :
    ((l.lookupElem t).isSome ↔ l.member t = true) ∧
    (l.lookupElem t = none ↔ l.member t = false) := by
  have hs := HList.lookupElem_isSome t l
  constructor
  · rw [← hs]
  · rw [← hs]
    cases hl : l.lookupElem t <;> simp

/-- C3: membership follows the structural recursion: `False` on `Nil`;
on `Cons` it is `True` when the head's label `LabelEq`s the target (without
consulting the tail) and equals the tail's membership otherwise; it is
`True` iff some element's label Uid equals the target's Uid, and
`has_label`/`has_label_typearg` (including the `Nil` implementations)
return exactly this boolean. -/
theorem claim_C3_member_recursion {α : Type} (t : Label) (h : LabeledValue α)
    (tl l : HList α) :
    (HList.nil : HList α).member t = false ∧
    (labelEq h.label t = true → (HList.cons h tl).member t = true) ∧
    (labelEq h.label t = false → (HList.cons h tl).member t = tl.member t) ∧
    (l.member t = true ↔ ∃ e ∈ l.toList, e.label.uid = t.uid) ∧
    l.has_label t = l.member t ∧
    l.has_label_typearg t = l.member t ∧
    (HList.nil : HList α).has_label t = false := by
  refine ⟨rfl, fun hb => ?_, fun hb => ?_, ?_, rfl, rfl, rfl⟩
  · rw [HList.member_cons, hb, Bool.true_or]
  · rw [HList.member_cons, hb, Bool.false_or]
  · rw [HList.member_eq_any, List.any_eq_true]
    constructor
    · rintro ⟨e, he, hp⟩
      exact ⟨e, he, by simpa [labelEq] using hp⟩
    · rintro ⟨e, he, hp⟩
      exact ⟨e, he, by simpa [labelEq] using hp⟩

/-- C3 witness: on the list `[A, B]`, `has_label` is `true` for `B` (whose
matching happens in the tail) and the `Nil` list has no labels. -/
theorem claim_C3_member_recursion_witness :
    (HList.cons ⟨lblA, ()⟩ (HList.cons ⟨lblB, ()⟩ HList.nil)).member lblB =
      (HList.cons ⟨lblB, ()⟩ HList.nil).member lblB :=
  (claim_C3_member_recursion lblB ⟨lblA, ()⟩ (HList.cons ⟨lblB, ()⟩ HList.nil)
      HList.nil).2.2.1 (by decide)

/-- C4: `LabelEq` is reflexive and symmetric, and on declared labels (those
whose Uid was minted by `generate_uint`) it yields `True` exactly when the
two Uid numerals encode equal integers. -/
theorem claim_C4_labelEq_uid (l m : Label) (a b : Nat)
    (ha : l.uid = generate_uint a) (hb : m.uid = generate_uint b) :
    labelEq l l = true ∧
    labelEq l m = labelEq m l ∧
    (labelEq l m = true ↔ l.uid.toNat = m.uid.toNat) := by
  refine ⟨by simp [labelEq], ?_, ?_⟩
  · by_cases h : l.uid = m.uid
    · simp [labelEq, h]
    · have h' : m.uid ≠ l.uid := fun e => h e.symm
      simp [labelEq, h, h']
  · simp only [labelEq, beq_iff_eq]
    constructor
    · intro he
      rw [he]
    · intro he
      rw [ha, hb] at he ⊢
      rw [toNat_generate_uint, toNat_generate_uint] at he
      rw [he]

/-- C4 witness: two labels declared from the same counter value 2 compare
equal, and the equality is equivalent to equality of the decoded ids. -/
theorem claim_C4_labelEq_uid_witness :
    labelEq ⟨"A", generate_uint 2⟩ ⟨"A", generate_uint 2⟩ = true ∧
    labelEq ⟨"A", generate_uint 2⟩ ⟨"B", generate_uint 2⟩ =
      labelEq ⟨"B", generate_uint 2⟩ ⟨"A", generate_uint 2⟩ ∧
    (labelEq ⟨"A", generate_uint 2⟩ ⟨"B", generate_uint 2⟩ = true ↔
      (Label.mk "A" (generate_uint 2)).uid.toNat =
        (Label.mk "B" (generate_uint 2)).uid.toNat) :=
  claim_C4_labelEq_uid ⟨"A", generate_uint 2⟩ ⟨"B", generate_uint 2⟩ 2 2 rfl rfl

/-- C5: the numeral encoding is canonical: the generated typenum numeral
decodes back to the counter value it was built from (the bits are emitted
most-significant first onto the `UTerm` terminal), and two generated
numeral types are identical iff they encode the same integer. -/
theorem claim_C5_generate_uint_canonical (v w : Nat) :
    (generate_uint v).toNat = v ∧
    (generate_uint v = generate_uint w ↔ v = w) := by
  refine ⟨toNat_generate_uint v, ?_, ?_⟩
  · exact fun h => generate_uint_injective h
  · intro h
    rw [h]

/-- C6: identifier minting never repeats and is strictly increasing:
threading the process-wide counter through successive declarations, a later
declaration's id is strictly greater than an earlier one's, and both the
minted numeral types and the runtime `id()` values decoded from them are
pairwise distinct. -/
theorem claim_C6_mint_strictly_increasing (c n i j : Nat)
    (hij : i < j) (hjn : j < n) :
    (mintSeq c n).getD i 0 < (mintSeq c n).getD j 0 ∧
    generate_uint ((mintSeq c n).getD i 0) ≠ generate_uint ((mintSeq c n).getD j 0) ∧
    (generate_uint ((mintSeq c n).getD i 0)).toNat ≠
      (generate_uint ((mintSeq c n).getD j 0)).toNat := by
  rw [mintSeq_getD c n i (Nat.lt_trans hij hjn), mintSeq_getD c n j hjn]
  refine ⟨by omega, ?_, ?_⟩
  · intro h
    have := generate_uint_injective h
    omega
  · rw [toNat_generate_uint, toNat_generate_uint]
    omega

/-- C6 witness: among three declarations minted from counter value 0, the
first id is smaller than the second and their numerals and decoded ids
differ. -/
theorem claim_C6_mint_strictly_increasing_witness :
    (mintSeq 0 3).getD 0 0 < (mintSeq 0 3).getD 1 0 ∧
    generate_uint ((mintSeq 0 3).getD 0 0) ≠ generate_uint ((mintSeq 0 3).getD 1 0) ∧
    (generate_uint ((mintSeq 0 3).getD 0 0)).toNat ≠
      (generate_uint ((mintSeq 0 3).getD 1 0)).toNat :=
  claim_C6_mint_strictly_increasing 0 3 0 1 (by decide) (by decide)

/-- C7: union concatenates preserving the left operand's order:
`Nil.union(rhs) = rhs`, `Cons{head, tail}.union(rhs) =
Cons{head, tail.union(rhs)}`; for label-disjoint ordered sets the elements
of the union are the left operand's elements in order followed by the right
operand's; and union is non-commutative in general. -/
theorem claim_C7_union_concat {α : Type} (a b : HList α) (h : LabeledValue α)
    (t : HList α) (_hoa : a.orderedHSet = true) (_hob : b.orderedHSet = true)
    (_hdj : ∀ x ∈ a.toList, b.member x.label = false) :
    HList.nil.union b = b ∧
    (HList.cons h t).union b = HList.cons h (t.union b) ∧
    (a.union b).toList = a.toList ++ b.toList ∧
    ∃ A B : HList Unit, A.union B ≠ B.union A := by
  refine ⟨rfl, rfl, HList.toList_union a b, ?_⟩
  exact ⟨HList.cons ⟨lblA, ()⟩ HList.nil, HList.cons ⟨lblB, ()⟩ HList.nil, by decide⟩

/-- C7 witness: the union of the disjoint singletons `[A = 1]` and
`[B = 2]` lists `A`'s element before `B`'s. -/
theorem claim_C7_union_concat_witness :
    ((HList.cons ⟨lblA, 1⟩ HList.nil).union (HList.cons ⟨lblB, 2⟩ HList.nil)).toList =
      (HList.cons ⟨lblA, (1 : Nat)⟩ HList.nil).toList ++
        (HList.cons ⟨lblB, 2⟩ HList.nil).toList :=
  (claim_C7_union_concat (HList.cons ⟨lblA, 1⟩ HList.nil)
      (HList.cons ⟨lblB, 2⟩ HList.nil) ⟨lblC, 3⟩ HList.nil
      (by decide) (by decide) (by decide)).2.2.1

/-- C8: the ordered-set operations preserve the no-duplicate-labels
invariant: `Nil` is an ordered set; prepending a non-member label preserves
the invariant while prepending a present label breaks it; union of
label-disjoint ordered sets is an ordered set while union of sets sharing a
label is not. -/
theorem claim_C8_ordered_invariants {α : Type} (s a b : HList α)
    (h : LabeledValue α) :
    (HList.nil : HList α).orderedHSet = true ∧
    (s.orderedHSet = true → s.member h.label = false →
      (s.prepend h).orderedHSet = true) ∧
    (s.member h.label = true → (s.prepend h).orderedHSet = false) ∧
    (a.orderedHSet = true → b.orderedHSet = true →
      (∀ x ∈ a.toList, b.member x.label = false) →
      (a.union b).orderedHSet = true) ∧
    ((∃ x ∈ a.toList, b.member x.label = true) →
      (a.union b).orderedHSet = false) := by
  refine ⟨rfl, fun hs hm => ?_, fun hm => ?_, HList.union_orderedHSet a b,
    HList.union_shared_not_orderedHSet a b⟩
  · show (HList.cons h s).orderedHSet = true
    rw [HList.orderedHSet_cons, hm, hs]
    rfl
  · show (HList.cons h s).orderedHSet = false
    rw [HList.orderedHSet_cons, hm]
    rfl

/-- C8 witness: prepending the fresh label `B` onto the ordered set
`[A = 1]` yields an ordered set. -/
theorem claim_C8_ordered_invariants_witness :
    ((HList.cons ⟨lblA, (1 : Nat)⟩ HList.nil).prepend ⟨lblB, 2⟩).orderedHSet = true :=
  (claim_C8_ordered_invariants (HList.cons ⟨lblA, 1⟩ HList.nil)
      HList.nil HList.nil ⟨lblB, 2⟩).2.1 (by decide) (by decide)

/-- C9: label-directed mutation is frame-preserving: on a list with
pairwise distinct labels containing `B`, writing through `value_mut::<B>()`
succeeds, reading `value::<B>()` afterwards returns the written value, the
labels are unchanged positionally, and every element whose label's Uid
differs from `B`'s is unchanged. -/
theorem claim_C9_value_mut_frame {α : Type} (l : HList α) (B : Label) (v : α)
    (_hdist : l.toList.Pairwise (fun x y => x.label.uid ≠ y.label.uid))
    (hmem : l.member B = true) :
    ∃ l', l.setValue B v = some l' ∧ l'.valueOf B = some v ∧
      List.Forall₂ (fun e e' => e'.label = e.label ∧ (e.label.uid ≠ B.uid → e' = e))
        l.toList l'.toList := by
  obtain ⟨l', h1, h2, h3⟩ := HList.setValue_spec B v l hmem
  refine ⟨l', h1, h2, ?_⟩
  refine List.Forall₂.imp (fun e e' he => ⟨he.1, fun hne => he.2 ?_⟩) h3
  simp [labelEq, hne]

/-- C9 witness: in `[A = 1, B = 2, C = 3]`, writing `9` through `B` gives a
list where `B` reads back `9` and `A` and `C` are untouched. -/
theorem claim_C9_value_mut_frame_witness :
    ∃ l', (HList.cons ⟨lblA, 1⟩ (HList.cons ⟨lblB, 2⟩
        (HList.cons ⟨lblC, 3⟩ HList.nil))).setValue lblB (9 : Nat) = some l' ∧
      l'.valueOf lblB = some 9 ∧
      List.Forall₂ (fun e e' => e'.label = e.label ∧ (e.label.uid ≠ lblB.uid → e' = e))
        (HList.cons ⟨lblA, (1 : Nat)⟩ (HList.cons ⟨lblB, 2⟩
          (HList.cons ⟨lblC, 3⟩ HList.nil))).toList l'.toList :=
  claim_C9_value_mut_frame
    (HList.cons ⟨lblA, 1⟩ (HList.cons ⟨lblB, 2⟩ (HList.cons ⟨lblC, 3⟩ HList.nil)))
    lblB 9 (by decide) (by decide)

/-- C10: `static_labels` allocates a `LEN`-sized vector, the `build_labels`
recursion fills every index in head-to-tail order without any assertion
failure or out-of-bounds write (no panic), and the result holds the labels'
`NAME` strings in list order. -/
theorem claim_C10_static_labels {α : Type} (l : HList α) :
    l.static_labels = some (l.toList.map (fun e => e.label.name)) ∧
    (l.toList.map (fun e => e.label.name)).length = l.len := by
  refine ⟨HList.static_labels_eq l, ?_⟩
  rw [List.length_map, HList.len_eq_toList_length]

end Lhlist
